import Mathlib

/-!
Verification of the text-chunking and batch-orchestration core of the
audio-generation application (source: `src/app/page.tsx` and
`src/app/api/generate-audio-batch/route.ts`).

Strings are modelled as `List Char`; JavaScript string indices become list
indices.  Fallible/asynchronous code is modelled with `Option`/`Except`,
and the external per-chunk generation capability is an oracle parameter.
-/

namespace AudioApp

/-- Whitespace as JavaScript's `trim` and the regex class `\s` treat it
(ASCII range; both use the same class, which is what the proofs rely on). -/
def isWs (c : Char) : Bool :=
  c == ' ' || c == '\t' || c == '\n' || c == '\r' || c == '\x0b' || c == '\x0c'

/-- The sentence-terminator class `[.?!]` of `sentenceEndChars`. -/
def isSentEnd (c : Char) : Bool :=
  c == '.' || c == '?' || c == '!'

/-- The line-break class `[\n\r]` of `sentenceEndChars`. -/
def isNL (c : Char) : Bool :=
  c == '\n' || c == '\r'

/-- All non-whitespace characters of a string, in order. -/
def removeWs (l : List Char) : List Char := l.filter (fun c => !isWs c)

/-- JavaScript `String.prototype.trim`: drop trailing whitespace, then
leading whitespace. -/
def trimList (l : List Char) : List Char :=
  ((l.reverse.dropWhile isWs).reverse).dropWhile isWs

/-- Length of a match of the regex `[.?!]\s+|[\n\r]+` anchored at the head of
`s` (first alternative tried first, `+` greedy), `none` when neither
alternative matches here. -/
def matchLen (s : List Char) : Option Nat :=
  match s with
  | [] => none
  | c :: rest =>
    if isSentEnd c then
      if 0 < (rest.takeWhile isWs).length then some (1 + (rest.takeWhile isWs).length)
      else none
    else if isNL c then some (1 + (rest.takeWhile isNL).length)
    else none

/-- Recursion core of `scanLastEnd`.  `fuel` only bounds the recursion depth:
every step consumes at least one character (a match produced by `matchLen` has
length ≥ 1), so `fuel = s.length` always suffices and the `fuel = 0` branch is
reached only on the empty remainder. -/
def scanLastEndAux : Nat → List Char → Option Nat
  | 0, _ => none
  | _ + 1, [] => none
  | fuel + 1, c :: rest =>
    match matchLen (c :: rest) with
    | some n =>
      match scanLastEndAux fuel ((c :: rest).drop n) with
      | some e => some (n + e)
      | none => some n
    | none =>
      match scanLastEndAux fuel rest with
      | some e => some (1 + e)
      | none => none

/-- End offset (index + length) of the LAST match produced by repeatedly
running `sentenceEndChars.exec` over `s` (a global regex: each search resumes
at the end of the previous match), `none` when there is no match at all. -/
def scanLastEnd (s : List Char) : Option Nat :=
  scanLastEndAux s.length s

/-- Accumulator pass behind `lastSpaceLE`:  `i` is the index of the head of
`l` inside the original string, `acc` the best (largest) index found so far. -/
def lastSpaceAux : List Char → Nat → Nat → Option Nat → Option Nat
  | [], _, _, acc => acc
  | c :: rest, i, pos, acc =>
    if c == ' ' && decide (i ≤ pos) then lastSpaceAux rest (i + 1) pos (some i)
    else lastSpaceAux rest (i + 1) pos acc

/-- JavaScript `text.lastIndexOf(' ', pos)`: the largest index `≤ pos` holding
a space character, `none` standing for `-1`. -/
def lastSpaceLE (text : List Char) (pos : Nat) : Option Nat :=
  lastSpaceAux text 0 pos none

/-- `text.substring(a, b)` for `a ≤ b` (the half-open region `[a, b)`). -/
def sliceOf (text : List Char) (a b : Nat) : List Char :=
  (text.drop a).take (b - a)

/-- The chunk record produced by `chunkText` (interface `TextChunk`). -/
structure TextChunk where
  index : Nat
  text : List Char
  startChar : Nat
  endChar : Nat
  deriving DecidableEq

/-- The space-fallback of the split-point computation: `text.lastIndexOf(' ',
chunkEnd)` and, when that space is strictly after `currentPosition`, split
right after it; otherwise hard-cut at `chunkEnd = currentPosition + maxLength`. -/
def spaceFallbackFn (text : List Char) (maxLength cp : Nat) : Nat :=
  match lastSpaceLE text (cp + maxLength) with
  | some sp => if cp < sp then sp + 1 else cp + maxLength
  | none => cp + maxLength

/-- The split point one iteration of `chunkText`'s loop chooses at
`currentPosition = cp` (only reached when `cp + maxLength < text.length`):
last sentence boundary in the window if the guard
`lastMatchPosition > currentPosition && lastMatchPosition <= chunkEnd`
holds, otherwise the space fallback. -/
def splitPositionFn (text : List Char) (maxLength cp : Nat) : Nat :=
  match scanLastEnd (sliceOf text cp (cp + maxLength)) with
  | some e =>
    if cp < cp + e ∧ cp + e ≤ cp + maxLength then cp + e
    else spaceFallbackFn text maxLength cp
  | none => spaceFallbackFn text maxLength cp

/-- The `while (currentPosition < text.length)` loop of `chunkText`.  `fuel`
bounds the number of iterations; `none` means the fuel ran out before the
loop did (shown impossible for `fuel = text.length` once `1 ≤ maxLength`). -/
def chunkLoop (text : List Char) (maxLength : Nat) :
    Nat → Nat → Nat → Option (List TextChunk)
  | 0, cp, _ => if text.length ≤ cp then some [] else none
  | fuel + 1, cp, chunkIndex =>
    if text.length ≤ cp then some []
    else if text.length ≤ cp + maxLength then
      some [⟨chunkIndex, text.drop cp, cp, text.length⟩]
    else if (trimList (sliceOf text cp (splitPositionFn text maxLength cp))).length = 0 then
      chunkLoop text maxLength fuel (splitPositionFn text maxLength cp) chunkIndex
    else
      (chunkLoop text maxLength fuel (splitPositionFn text maxLength cp) (chunkIndex + 1)).map
        (fun cs =>
          ⟨chunkIndex, trimList (sliceOf text cp (splitPositionFn text maxLength cp)), cp,
            splitPositionFn text maxLength cp⟩ :: cs)

/-- `chunkText(text, maxLength)` of `page.tsx`: one whole-input chunk when the
text is empty (JS falsy) or short enough, otherwise the splitting loop. -/
def chunkText (text : List Char) (maxLength : Nat) : Option (List TextChunk) :=
  if text.length = 0 ∨ text.length ≤ maxLength then
    some [⟨0, text, 0, text.length⟩]
  else
    chunkLoop text maxLength text.length 0 0

/-- Concatenation of the emitted chunk texts, in emission order. -/
def concatTexts (cs : List TextChunk) : List Char :=
  cs.foldr (fun c acc => c.text ++ acc) []

theorem length_dropWhile_le (p : Char → Bool) (l : List Char) :
    (l.dropWhile p).length ≤ l.length :=
  (List.dropWhile_suffix p).sublist.length_le

theorem trimList_length_le (l : List Char) : (trimList l).length ≤ l.length := by
  unfold trimList
  calc ((l.reverse.dropWhile isWs).reverse.dropWhile isWs).length
      ≤ (l.reverse.dropWhile isWs).reverse.length := length_dropWhile_le _ _
    _ = (l.reverse.dropWhile isWs).length := by simp
    _ ≤ l.reverse.length := length_dropWhile_le _ _
    _ = l.length := by simp

theorem filter_notWs_dropWhile (l : List Char) :
    (l.dropWhile isWs).filter (fun c => !isWs c) = l.filter (fun c => !isWs c) := by
  induction l with
  | nil => rfl
  | cons c t ih =>
    cases hw : isWs c with
    | true => simp [List.dropWhile_cons, List.filter_cons, hw, ih]
    | false => simp [List.dropWhile_cons, List.filter_cons, hw]

theorem removeWs_trimList (l : List Char) : removeWs (trimList l) = removeWs l := by
  unfold removeWs trimList
  rw [filter_notWs_dropWhile, List.filter_reverse, filter_notWs_dropWhile,
    ← List.filter_reverse, List.reverse_reverse]

theorem removeWs_eq_nil (l : List Char) (h : trimList l = []) : removeWs l = [] := by
  rw [← removeWs_trimList, h]; rfl

theorem removeWs_dropWhile_ne_nil (l : List Char) (h : l.dropWhile isWs ≠ []) :
    removeWs (l.dropWhile isWs) ≠ [] := by
  induction l with
  | nil => simp at h
  | cons c t ih =>
    cases hw : isWs c with
    | true =>
      rw [List.dropWhile_cons, hw] at h ⊢
      simpa using ih (by simpa using h)
    | false =>
      rw [List.dropWhile_cons, hw]
      simp [removeWs, List.filter_cons, hw]

theorem trimList_trimList_ne_nil (l : List Char) (h : trimList l ≠ []) :
    trimList (trimList l) ≠ [] := by
  intro hcon
  have h2 : removeWs (trimList l) = [] := removeWs_eq_nil _ hcon
  have h3 : removeWs (trimList l) ≠ [] := by
    unfold trimList at h ⊢
    exact removeWs_dropWhile_ne_nil _ h
  exact h3 h2

theorem trimList_append_ws {c : Char} (l : List Char) (hc : isWs c = true) :
    (trimList (l ++ [c])).length ≤ l.length := by
  unfold trimList
  have h1 : (l ++ [c]).reverse = c :: l.reverse := by simp
  rw [h1, List.dropWhile_cons, hc]
  simp only [if_true]
  calc ((l.reverse.dropWhile isWs).reverse.dropWhile isWs).length
      ≤ (l.reverse.dropWhile isWs).reverse.length := length_dropWhile_le _ _
    _ = (l.reverse.dropWhile isWs).length := by simp
    _ ≤ l.reverse.length := length_dropWhile_le _ _
    _ = l.length := by simp

theorem lastSpaceAux_spec :
    ∀ (l : List Char) (i pos : Nat) (acc : Option Nat) (sp : Nat),
      lastSpaceAux l i pos acc = some sp →
      acc = some sp ∨ (i ≤ sp ∧ sp ≤ pos ∧ l[sp - i]? = some ' ') := by
  intro l
  induction l with
  | nil =>
    intro i pos acc sp h
    left
    exact h
  | cons c t ih =>
    intro i pos acc sp h
    simp only [lastSpaceAux] at h
    split at h
    case isTrue hcond =>
      have hc : c = ' ' ∧ i ≤ pos := by
        constructor
        · have := (Bool.and_eq_true _ _).mp hcond |>.1
          exact eq_of_beq this
        · have := (Bool.and_eq_true _ _).mp hcond |>.2
          exact of_decide_eq_true this
      rcases ih (i + 1) pos (some i) sp h with h1 | h2
      · right
        have hsp : sp = i := by
          injection h1 with h1
          omega
        subst hsp
        refine ⟨Nat.le_refl _, hc.2, ?_⟩
        have : sp - sp = 0 := by omega
        rw [this, List.getElem?_cons_zero, hc.1]
      · right
        obtain ⟨hi, hp, hg⟩ := h2
        refine ⟨by omega, hp, ?_⟩
        have heq : sp - i = (sp - (i + 1)) + 1 := by omega
        rw [heq, List.getElem?_cons_succ]
        exact hg
    case isFalse =>
      rcases ih (i + 1) pos acc sp h with h1 | h2
      · left; exact h1
      · right
        obtain ⟨hi, hp, hg⟩ := h2
        refine ⟨by omega, hp, ?_⟩
        have heq : sp - i = (sp - (i + 1)) + 1 := by omega
        rw [heq, List.getElem?_cons_succ]
        exact hg

theorem lastSpaceLE_spec {text : List Char} {pos sp : Nat}
    (h : lastSpaceLE text pos = some sp) :
    sp ≤ pos ∧ text[sp]? = some ' ' := by
  rcases lastSpaceAux_spec text 0 pos none sp h with h1 | h2
  · cases h1
  · obtain ⟨_, hp, hg⟩ := h2
    refine ⟨hp, ?_⟩
    simpa using hg

theorem sliceOf_append_drop (text : List Char) {a b : Nat} (h : a ≤ b) :
    sliceOf text a b ++ text.drop b = text.drop a := by
  unfold sliceOf
  have h2 : text.drop b = (text.drop a).drop (b - a) := by
    rw [List.drop_drop]
    congr 1
    omega
  rw [h2, List.take_append_drop]

theorem sliceOf_length (text : List Char) (a b : Nat) :
    (sliceOf text a b).length = min (b - a) (text.length - a) := by
  unfold sliceOf
  rw [List.length_take, List.length_drop]

theorem trim_slice_space {text : List Char} {cp sp : Nat} (h1 : cp < sp)
    (hg : text[sp]? = some ' ') :
    (trimList (sliceOf text cp (sp + 1))).length ≤ sp - cp := by
  have hslice : sliceOf text cp (sp + 1) = sliceOf text cp sp ++ [' '] := by
    unfold sliceOf
    have he : sp + 1 - cp = (sp - cp) + 1 := by omega
    rw [he, List.take_succ]
    congr 1
    rw [List.getElem?_drop]
    have hcs : cp + (sp - cp) = sp := by omega
    rw [hcs, hg]
    rfl
  rw [hslice]
  calc (trimList (sliceOf text cp sp ++ [' '])).length
      ≤ (sliceOf text cp sp).length := trimList_append_ws _ (by decide)
    _ ≤ sp - cp := by rw [sliceOf_length]; omega

theorem trim_slice_hard (text : List Char) (maxLength cp : Nat) :
    (trimList (sliceOf text cp (cp + maxLength))).length ≤ maxLength := by
  calc (trimList (sliceOf text cp (cp + maxLength))).length
      ≤ (sliceOf text cp (cp + maxLength)).length := trimList_length_le _
    _ ≤ maxLength := by rw [sliceOf_length]; omega

theorem trim_slice_fallback {text : List Char} {maxLength cp : Nat}
    (hlen : cp + maxLength < text.length) :
    (trimList (sliceOf text cp (spaceFallbackFn text maxLength cp))).length ≤ maxLength := by
  unfold spaceFallbackFn
  split
  case h_1 sp heq =>
    obtain ⟨hsp, hg⟩ := lastSpaceLE_spec heq
    split
    case isTrue hlt =>
      have hb := trim_slice_space hlt hg
      omega
    case isFalse => exact trim_slice_hard text maxLength cp
  case h_2 => exact trim_slice_hard text maxLength cp

theorem trim_slice_split {text : List Char} {maxLength cp : Nat}
    (hlen : cp + maxLength < text.length) :
    (trimList (sliceOf text cp (splitPositionFn text maxLength cp))).length ≤ maxLength := by
  unfold splitPositionFn
  split
  case h_1 e heq =>
    split
    case isTrue hguard =>
      calc (trimList (sliceOf text cp (cp + e))).length
          ≤ (sliceOf text cp (cp + e)).length := trimList_length_le _
        _ ≤ maxLength := by rw [sliceOf_length]; omega
    case isFalse => exact trim_slice_fallback hlen
  case h_2 => exact trim_slice_fallback hlen

theorem le_spaceFallbackFn (text : List Char) (maxLength cp : Nat) :
    cp ≤ spaceFallbackFn text maxLength cp := by
  unfold spaceFallbackFn
  split
  · split <;> omega
  · omega

theorem le_splitPositionFn (text : List Char) (maxLength cp : Nat) :
    cp ≤ splitPositionFn text maxLength cp := by
  unfold splitPositionFn
  split
  · split
    · omega
    · exact le_spaceFallbackFn text maxLength cp
  · exact le_spaceFallbackFn text maxLength cp

theorem lt_spaceFallbackFn (text : List Char) {maxLength : Nat} (cp : Nat)
    (hm : 1 ≤ maxLength) : cp < spaceFallbackFn text maxLength cp := by
  unfold spaceFallbackFn
  split
  · split <;> omega
  · omega

theorem lt_splitPositionFn (text : List Char) {maxLength : Nat} (cp : Nat)
    (hm : 1 ≤ maxLength) : cp < splitPositionFn text maxLength cp := by
  unfold splitPositionFn
  split
  · split
    · omega
    · exact lt_spaceFallbackFn text cp hm
  · exact lt_spaceFallbackFn text cp hm

theorem chunkLoop_isSome (text : List Char) {maxLength : Nat} (hm : 1 ≤ maxLength) :
    ∀ fuel cp idx, text.length ≤ cp + fuel →
      (chunkLoop text maxLength fuel cp idx).isSome = true := by
  intro fuel
  induction fuel with
  | zero =>
    intro cp idx h
    simp only [chunkLoop]
    rw [if_pos (by omega)]
    rfl
  | succ fuel ih =>
    intro cp idx h
    simp only [chunkLoop]
    split
    · rfl
    · split
      · rfl
      · have hlt := lt_splitPositionFn text cp hm
        split
        · exact ih _ idx (by omega)
        · rw [Option.isSome_map']
          exact ih _ (idx + 1) (by omega)

theorem chunkLoop_spec (text : List Char) (maxLength : Nat) :
    ∀ fuel cp idx cs, chunkLoop text maxLength fuel cp idx = some cs →
      (∀ c ∈ cs, c.text = sliceOf text c.startChar c.endChar ∨
        c.text = trimList (sliceOf text c.startChar c.endChar)) ∧
      removeWs (concatTexts cs) = removeWs (text.drop cp) ∧
      (∀ c ∈ cs, (trimList c.text).length ≤ maxLength) ∧
      (∀ c ∈ cs, c.endChar < text.length → (trimList c.text).length ≠ 0) ∧
      cs.map TextChunk.index = List.range' idx cs.length := by
  have base : ∀ cp idx, text.length ≤ cp →
      (∀ c ∈ ([] : List TextChunk), c.text = sliceOf text c.startChar c.endChar ∨
        c.text = trimList (sliceOf text c.startChar c.endChar)) ∧
      removeWs (concatTexts []) = removeWs (text.drop cp) ∧
      (∀ c ∈ ([] : List TextChunk), (trimList c.text).length ≤ maxLength) ∧
      (∀ c ∈ ([] : List TextChunk), c.endChar < text.length → (trimList c.text).length ≠ 0) ∧
      ([] : List TextChunk).map TextChunk.index = List.range' idx 0 := by
    intro cp idx hle
    have hd : text.drop cp = [] := List.drop_eq_nil_of_le hle
    refine ⟨by simp, ?_, by simp, by simp, by simp [List.range']⟩
    simp [concatTexts, hd]
  intro fuel
  induction fuel with
  | zero =>
    intro cp idx cs h
    simp only [chunkLoop] at h
    split at h
    case isTrue hle =>
      cases h
      exact base cp idx hle
    case isFalse => cases h
  | succ fuel ih =>
    intro cp idx cs h
    simp only [chunkLoop] at h
    split at h
    case isTrue hle =>
      cases h
      exact base cp idx hle
    case isFalse hgt =>
      split at h
      case isTrue hfin =>
        cases h
        have hdroplen : (text.drop cp).length = text.length - cp := List.length_drop _ _
        have hslice : sliceOf text cp text.length = text.drop cp := by
          unfold sliceOf
          exact List.take_of_length_le (by omega)
        refine ⟨?_, ?_, ?_, ?_, ?_⟩
        · intro c hc
          simp only [List.mem_singleton] at hc
          subst hc
          left
          exact hslice.symm
        · simp [concatTexts]
        · intro c hc
          simp only [List.mem_singleton] at hc
          subst hc
          have := trimList_length_le (text.drop cp)
          simp only at this ⊢
          omega
        · intro c hc hend
          simp only [List.mem_singleton] at hc
          subst hc
          simp only at hend
          omega
        · simp [List.range']
      case isFalse hmid =>
        have hle2 := le_splitPositionFn text maxLength cp
        have hsplitcat :
            sliceOf text cp (splitPositionFn text maxLength cp) ++
              text.drop (splitPositionFn text maxLength cp) = text.drop cp :=
          sliceOf_append_drop text hle2
        split at h
        case isTrue hct =>
          obtain ⟨ih1, ih2, ih3, ih4, ih5⟩ := ih _ _ _ h
          refine ⟨ih1, ?_, ih3, ih4, ih5⟩
          have hnil : removeWs (sliceOf text cp (splitPositionFn text maxLength cp)) = [] :=
            removeWs_eq_nil _ (List.length_eq_zero.mp hct)
          rw [← hsplitcat]
          show _ = List.filter _ _
          rw [List.filter_append]
          show _ = removeWs _ ++ removeWs _
          rw [hnil, ih2]
          simp
        case isFalse hct =>
          rw [Option.map_eq_some'] at h
          obtain ⟨cs', hloop, hcs⟩ := h
          subst hcs
          obtain ⟨ih1, ih2, ih3, ih4, ih5⟩ := ih _ _ _ hloop
          have hbound : (trimList (sliceOf text cp (splitPositionFn text maxLength cp))).length
              ≤ maxLength := trim_slice_split (by omega)
          refine ⟨?_, ?_, ?_, ?_, ?_⟩
          · intro c hc
            rcases List.mem_cons.mp hc with rfl | hc'
            · right; rfl
            · exact ih1 c hc'
          · have hcc : concatTexts
                (⟨idx, trimList (sliceOf text cp (splitPositionFn text maxLength cp)), cp,
                  splitPositionFn text maxLength cp⟩ :: cs') =
                trimList (sliceOf text cp (splitPositionFn text maxLength cp)) ++
                  concatTexts cs' := rfl
            rw [hcc, ← hsplitcat]
            show List.filter _ _ = List.filter _ _
            rw [List.filter_append, List.filter_append]
            show removeWs _ ++ removeWs _ = removeWs _ ++ removeWs _
            rw [removeWs_trimList, ih2]
          · intro c hc
            rcases List.mem_cons.mp hc with rfl | hc'
            · calc (trimList (trimList (sliceOf text cp (splitPositionFn text maxLength cp)))).length
                  ≤ (trimList (sliceOf text cp (splitPositionFn text maxLength cp))).length :=
                    trimList_length_le _
                _ ≤ maxLength := hbound
            · exact ih3 c hc'
          · intro c hc hend
            rcases List.mem_cons.mp hc with rfl | hc'
            · have hne : trimList (sliceOf text cp (splitPositionFn text maxLength cp)) ≠ [] := by
                intro hh
                exact hct (by rw [hh]; rfl)
              have := trimList_trimList_ne_nil _ hne
              simpa [Ne, ← List.length_eq_zero] using this
            · exact ih4 c hc' hend
          · simp only [List.map_cons, List.length_cons, ih5]
            rw [List.range'_succ]

/-- C1: for every input `text` and every `maxLength ≥ 1`, every chunk emitted
by `chunkText text maxLength` has trimmed text of length at most `maxLength`;
this covers the hard-cut case as well, which is itself bounded by `maxLength`. -/
theorem chunkText_trimmed_length_le (text : List Char) (maxLength : Nat)
    (hm : 1 ≤ maxLength) (cs : List TextChunk) (h : chunkText text maxLength = some cs)
    (c : TextChunk) (hc : c ∈ cs) : (trimList c.text).length ≤ maxLength := by
  unfold chunkText at h
  split at h
  case isTrue hsh =>
    cases h
    simp only [List.mem_singleton] at hc
    subst hc
    have := trimList_length_le text
    simp only
    rcases hsh with h0 | h1 <;> omega
  case isFalse =>
    exact (chunkLoop_spec text maxLength _ _ _ _ h).2.2.1 c hc

theorem chunkText_trimmed_length_le_witness :
    1 ≤ 2 ∧ (trimList ("ab".data)).length ≤ 2 :=
  ⟨by decide,
    chunkText_trimmed_length_le ("abcd".data) 2 (by decide)
      [⟨0, "ab".data, 0, 2⟩, ⟨1, "cd".data, 2, 4⟩] (by decide)
      ⟨0, "ab".data, 0, 2⟩ (by decide)⟩

/-- C2: for every input `text` and `maxLength ≥ 1`, every emitted chunk's text
is the (possibly trimmed) content of the half-open region
`[startChar, endChar)` of the input, and the concatenation of the chunk texts
in index order reconstructs the input up to the whitespace removed by
trimming: no non-whitespace character is lost or duplicated. -/
theorem chunkText_reconstructs_input (text : List Char) (maxLength : Nat)
    (hm : 1 ≤ maxLength) (cs : List TextChunk) (h : chunkText text maxLength = some cs) :
    (∀ c ∈ cs, c.text = sliceOf text c.startChar c.endChar ∨
      c.text = trimList (sliceOf text c.startChar c.endChar)) ∧
    removeWs (concatTexts cs) = removeWs text := by
  unfold chunkText at h
  split at h
  case isTrue hsh =>
    cases h
    constructor
    · intro c hc
      simp only [List.mem_singleton] at hc
      subst hc
      left
      show text = sliceOf text 0 text.length
      unfold sliceOf
      simp
    · simp [concatTexts]
  case isFalse =>
    have hspec := chunkLoop_spec text maxLength _ _ _ _ h
    exact ⟨hspec.1, by simpa using hspec.2.1⟩

theorem chunkText_reconstructs_input_witness :
    1 ≤ 2 ∧
    removeWs (concatTexts [⟨0, "ab".data, 0, 2⟩, ⟨1, "cd".data, 2, 4⟩]) =
      removeWs ("abcd".data) :=
  ⟨by decide,
    (chunkText_reconstructs_input ("abcd".data) 2 (by decide)
      [⟨0, "ab".data, 0, 2⟩, ⟨1, "cd".data, 2, 4⟩] (by decide)).2⟩

/-- C3: `chunkText` is total for every input once `maxLength ≥ 1`: the loop's
split position strictly advances `currentPosition` in every branch (sentence
boundary, space fallback or hard cut), so the loop terminates within
`text.length` iterations and the fuelled model never runs out of fuel. -/
theorem chunkText_total_and_advances (text : List Char) (maxLength : Nat)
    (hm : 1 ≤ maxLength) :
    (∀ cp, cp < splitPositionFn text maxLength cp) ∧
    (chunkText text maxLength).isSome = true := by
  constructor
  · intro cp
    exact lt_splitPositionFn text cp hm
  · unfold chunkText
    split
    · rfl
    · exact chunkLoop_isSome text hm text.length 0 0 (by omega)

theorem chunkText_total_and_advances_witness :
    1 ≤ 1 ∧ 0 < splitPositionFn ("aaaa".data) 1 0 ∧
    (chunkText ("aaaa".data) 1).isSome = true :=
  ⟨by decide, (chunkText_total_and_advances ("aaaa".data) 1 (by decide)).1 0,
    (chunkText_total_and_advances ("aaaa".data) 1 (by decide)).2⟩

/-- C4 is refuted on the code: with `maxLength = 2 ≥ 1` and input `"ab   "`,
`chunkText` emits the final chunk `⟨1, "  ", 3, 5⟩` via the tail branch, which
pushes `text.substring(currentPosition)` without trimming or an emptiness
check — an emitted chunk whose trimmed text is empty. -/
theorem chunkText_whitespace_chunk_counterexample :
    chunkText ("ab   ".data) 2 =
      some [⟨0, "ab".data, 0, 3⟩, ⟨1, "  ".data, 3, 5⟩] ∧
    trimList ("  ".data) = [] := by
  constructor
  · rfl
  · rfl

/-- C4 (amended): every chunk emitted by the loop's splitting branch — that
is, every chunk other than the final tail chunk (`endChar = text.length`) —
has non-empty trimmed text, and a candidate whose trimmed text is empty is
discarded without consuming an index, so emitted indices are exactly
`0..N-1`; the final tail chunk (and the single whole-input chunk) is emitted
untrimmed and may be whitespace-only. -/
theorem chunkText_nonfinal_chunks_nonempty (text : List Char) (maxLength : Nat)
    (hm : 1 ≤ maxLength) (cs : List TextChunk) (h : chunkText text maxLength = some cs) :
    (∀ c ∈ cs, c.endChar < text.length → (trimList c.text).length ≠ 0) ∧
    cs.map TextChunk.index = List.range cs.length := by
  unfold chunkText at h
  split at h
  case isTrue hsh =>
    cases h
    constructor
    · intro c hc hend
      simp only [List.mem_singleton] at hc
      subst hc
      simp only at hend
      omega
    · rfl
  case isFalse =>
    have hspec := chunkLoop_spec text maxLength _ _ _ _ h
    exact ⟨hspec.2.2.2.1, by rw [hspec.2.2.2.2, List.range_eq_range']⟩

theorem chunkText_nonfinal_chunks_nonempty_witness :
    1 ≤ 2 ∧ (trimList ("ab".data)).length ≠ 0 ∧
    ([⟨0, "ab".data, 0, 2⟩, ⟨1, "cd".data, 2, 4⟩] : List TextChunk).map TextChunk.index =
      List.range 2 :=
  ⟨by decide,
    (chunkText_nonfinal_chunks_nonempty ("abcd".data) 2 (by decide)
      [⟨0, "ab".data, 0, 2⟩, ⟨1, "cd".data, 2, 4⟩] (by decide)).1
      ⟨0, "ab".data, 0, 2⟩ (by decide) (by decide),
    (chunkText_nonfinal_chunks_nonempty ("abcd".data) 2 (by decide)
      [⟨0, "ab".data, 0, 2⟩, ⟨1, "cd".data, 2, 4⟩] (by decide)).2⟩

/-- C5: on the input `"Hello world. This is a test. Another sentence here."`
with `maxLength = 25`, the first split point is 13 — immediately after
`"Hello world. "` (period plus its trailing space) — so the first emitted
chunk's trimmed text is `"Hello world."` and no split occurs mid-sentence. -/
theorem chunkText_boundary_preference :
    splitPositionFn ("Hello world. This is a test. Another sentence here.".data) 25 0 = 13 ∧
    chunkText ("Hello world. This is a test. Another sentence here.".data) 25 =
      some [⟨0, "Hello world.".data, 0, 13⟩,
        ⟨1, "This is a test.".data, 13, 29⟩,
        ⟨2, "Another sentence here.".data, 29, 51⟩] := by
  constructor
  · rfl
  · rfl

/-! ## Batch scheduler (`handleGenerateAudio`, `handlePauseResume` of `page.tsx`)

The per-batch network call (`processBatch` / the batch route) is an oracle
`outcomes : Nat → Except error (List ChunkResult)`: `.ok results` models a
successful batch response, `.error msg` models the batch submission throwing
before per-chunk results are known.  The cooperative `isPaused` flag read at
the top of each loop iteration is an oracle `pauseAt : Nat → Bool`. -/

/-- `AudioChunk.status` values. -/
inductive ChunkStatus
  | pending
  | generating
  | completed
  | failed
  deriving DecidableEq

/-- The client-side `AudioChunk` record (one per `TextChunk`). -/
structure AudioChunk where
  chunkIndex : Nat
  audioUrl : List Char
  duration : Nat
  filename : List Char
  status : ChunkStatus
  error : Option (List Char)
  text : List Char
  deriving DecidableEq

/-- The `BatchProgress` record. -/
structure BatchProgress where
  totalBatches : Nat
  completedBatches : Nat
  currentBatch : Nat
  totalChunks : Nat
  completedChunks : Nat
  failedChunks : Nat
  deriving DecidableEq

/-- One per-chunk result of the batch route's response (`ChunkResult` of
`route.ts`; the artifact fields are optional there). -/
structure ChunkResult where
  chunkIndex : Nat
  success : Bool
  audioUrl : Option (List Char)
  duration : Option Nat
  filename : Option (List Char)
  error : Option (List Char)
  deriving DecidableEq

/-- The mutable client state a run drives: the `audioChunks` array and the
(initialised) `batchProgress`. -/
structure RunState where
  audioChunks : List AudioChunk
  progress : BatchProgress
  deriving DecidableEq

/-- `textChunks.slice(batchIndex * batchSize, min((batchIndex+1) * batchSize,
textChunks.length))`. -/
def batchSlice (textChunks : List TextChunk) (batchSize batchIndex : Nat) : List TextChunk :=
  (textChunks.drop (batchIndex * batchSize)).take
    (min (batchIndex * batchSize + batchSize) textChunks.length - batchIndex * batchSize)

/-- The `setAudioChunks` update marking the batch's chunks as `generating`. -/
def markGenerating (batchChunks : List TextChunk) (c : AudioChunk) : AudioChunk :=
  if batchChunks.any (fun bc => bc.index == c.chunkIndex) then
    { c with status := ChunkStatus.generating }
  else c

/-- The `setAudioChunks` update folding a successful batch response in:
`results.find(r => r.chunkIndex === chunk.chunkIndex)`, then `completed` /
`failed` by `result.success`, with `|| ''` / `|| 0` defaults. -/
def applyResult (results : List ChunkResult) (c : AudioChunk) : AudioChunk :=
  match results.find? (fun r => r.chunkIndex == c.chunkIndex) with
  | some r =>
    { c with
      status := if r.success then ChunkStatus.completed else ChunkStatus.failed
      audioUrl := r.audioUrl.getD []
      duration := r.duration.getD 0
      filename := r.filename.getD []
      error := r.error }
  | none => c

/-- The catch-branch `setAudioChunks` update: every chunk of the failed batch
becomes `failed` carrying the thrown error's message. -/
def failBatch (batchChunks : List TextChunk) (msg : List Char) (c : AudioChunk) : AudioChunk :=
  if batchChunks.any (fun bc => bc.index == c.chunkIndex) then
    { c with status := ChunkStatus.failed, error := some msg }
  else c

/-- One iteration of the batch loop past its pause check: set `currentBatch`,
mark the slice `generating`, then fold in the batch outcome — the success
path counts `results.filter(success)` / `results.filter(!success)`, the
batch-error path fails the whole slice and adds its size to `failedChunks`;
`completedBatches` becomes `batchIndex + 1` on both paths. -/
def processBatchStep (textChunks : List TextChunk) (batchSize : Nat)
    (outcome : Except (List Char) (List ChunkResult)) (batchIndex : Nat)
    (st : RunState) : RunState :=
  match outcome with
  | Except.ok results =>
    { audioChunks :=
        (st.audioChunks.map (markGenerating (batchSlice textChunks batchSize batchIndex))).map
          (applyResult results)
      progress :=
        { totalBatches := st.progress.totalBatches
          completedBatches := batchIndex + 1
          currentBatch := batchIndex + 1
          totalChunks := st.progress.totalChunks
          completedChunks := st.progress.completedChunks +
            (results.filter (fun r => r.success)).length
          failedChunks := st.progress.failedChunks +
            (results.filter (fun r => !r.success)).length } }
  | Except.error msg =>
    { audioChunks :=
        (st.audioChunks.map (markGenerating (batchSlice textChunks batchSize batchIndex))).map
          (failBatch (batchSlice textChunks batchSize batchIndex) msg)
      progress :=
        { totalBatches := st.progress.totalBatches
          completedBatches := batchIndex + 1
          currentBatch := batchIndex + 1
          totalChunks := st.progress.totalChunks
          completedChunks := st.progress.completedChunks
          failedChunks := st.progress.failedChunks +
            (batchSlice textChunks batchSize batchIndex).length } }

/-- The `for (batchIndex ...)` loop: check the pause flag, stop on pause
(`break`), otherwise process the batch and continue; `rem` counts remaining
iterations (`totalBatches - i` at the call site). -/
def runLoop (textChunks : List TextChunk) (batchSize : Nat)
    (outcomes : Nat → Except (List Char) (List ChunkResult)) (pauseAt : Nat → Bool) :
    Nat → Nat → RunState → RunState
  | _, 0, st => st
  | i, rem + 1, st =>
    if pauseAt i then st
    else
      runLoop textChunks batchSize outcomes pauseAt (i + 1) rem
        (processBatchStep textChunks batchSize (outcomes i) i st)

/-- The `initialAudioChunks` array: one `pending` job per text chunk. -/
def initAudioChunks (textChunks : List TextChunk) : List AudioChunk :=
  textChunks.map (fun c => ⟨c.index, [], 0, [], ChunkStatus.pending, none, c.text⟩)

/-- The initial `setBatchProgress` value: `totalBatches = ceil(n / batchSize)`,
zero counters, `currentBatch = 1`. -/
def initProgress (textChunks : List TextChunk) (batchSize : Nat) : BatchProgress :=
  ⟨(textChunks.length + batchSize - 1) / batchSize, 0, 1, textChunks.length, 0, 0⟩

/-- The whole run of `handleGenerateAudio` past its input guards: the source
fixes `batchSize = 10` and `totalBatches = Math.ceil(textChunks.length / 10)`. -/
def handleGenerateAudio (textChunks : List TextChunk)
    (outcomes : Nat → Except (List Char) (List ChunkResult)) (pauseAt : Nat → Bool) :
    RunState :=
  runLoop textChunks 10 outcomes pauseAt 0 ((textChunks.length + 10 - 1) / 10)
    ⟨initAudioChunks textChunks, initProgress textChunks 10⟩

/-- `handlePauseResume` of `page.tsx`: it toggles the `isPaused` flag (and
shows a message); it touches no other state and re-enters no loop. -/
def handlePauseResume (isPaused : Bool) : Bool := !isPaused

theorem filter_success_partition (rs : List ChunkResult) :
    (rs.filter (fun r => r.success)).length +
      (rs.filter (fun r => !r.success)).length = rs.length := by
  induction rs with
  | nil => rfl
  | cons r t ih => cases hs : r.success <;> simp [List.filter_cons, hs] <;> omega

theorem batchSlice_length (textChunks : List TextChunk) (batchSize i : Nat) :
    (batchSlice textChunks batchSize i).length =
      min (min (i * batchSize + batchSize) textChunks.length - i * batchSize)
        (textChunks.length - i * batchSize) := by
  unfold batchSlice
  rw [List.length_take, List.length_drop]

theorem markGenerating_chunkIndex (bcs : List TextChunk) (c : AudioChunk) :
    (markGenerating bcs c).chunkIndex = c.chunkIndex := by
  unfold markGenerating
  split <;> rfl

theorem failBatch_chunkIndex (bcs : List TextChunk) (msg : List Char) (c : AudioChunk) :
    (failBatch bcs msg c).chunkIndex = c.chunkIndex := by
  unfold failBatch
  split <;> rfl

theorem processBatchStep_monotone (textChunks : List TextChunk) (bs : Nat)
    (outcome : Except (List Char) (List ChunkResult)) (i : Nat) (st : RunState) :
    st.progress.completedChunks ≤
      (processBatchStep textChunks bs outcome i st).progress.completedChunks ∧
    st.progress.failedChunks ≤
      (processBatchStep textChunks bs outcome i st).progress.failedChunks ∧
    (processBatchStep textChunks bs outcome i st).progress.totalChunks =
      st.progress.totalChunks := by
  cases outcome with
  | ok rs =>
    exact ⟨by simp only [processBatchStep]; omega, by simp only [processBatchStep]; omega, rfl⟩
  | error msg =>
    exact ⟨by simp only [processBatchStep]; omega, by simp only [processBatchStep]; omega, rfl⟩

theorem processBatchStep_sum_le (textChunks : List TextChunk) (bs : Nat)
    (outcome : Except (List Char) (List ChunkResult)) (i : Nat) (st : RunState)
    (hout : ∀ rs, outcome = Except.ok rs →
      rs.length ≤ (batchSlice textChunks bs i).length) :
    (processBatchStep textChunks bs outcome i st).progress.completedChunks +
      (processBatchStep textChunks bs outcome i st).progress.failedChunks ≤
      st.progress.completedChunks + st.progress.failedChunks +
        (batchSlice textChunks bs i).length := by
  cases outcome with
  | ok rs =>
    have h1 := hout rs rfl
    have h2 := filter_success_partition rs
    simp only [processBatchStep]
    omega
  | error msg =>
    simp only [processBatchStep]
    omega

theorem runLoop_sum_le (textChunks : List TextChunk) (batchSize : Nat)
    (outcomes : Nat → Except (List Char) (List ChunkResult)) (pauseAt : Nat → Bool) :
    ∀ (rem i : Nat) (st : RunState),
      (∀ j, j < i + rem → ∀ rs, outcomes j = Except.ok rs →
        rs.length ≤ (batchSlice textChunks batchSize j).length) →
      st.progress.completedChunks + st.progress.failedChunks ≤
        min (i * batchSize) textChunks.length →
      st.progress.totalChunks = textChunks.length →
      (runLoop textChunks batchSize outcomes pauseAt i rem st).progress.completedChunks +
        (runLoop textChunks batchSize outcomes pauseAt i rem st).progress.failedChunks ≤
        (runLoop textChunks batchSize outcomes pauseAt i rem st).progress.totalChunks := by
  intro rem
  induction rem with
  | zero =>
    intro i st _ hsum htot
    simp only [runLoop]
    omega
  | succ rem ih =>
    intro i st hout hsum htot
    simp only [runLoop]
    split
    · omega
    · apply ih (i + 1)
      · intro j hj rs hrs
        exact hout j (by omega) rs hrs
      · have hstep := processBatchStep_sum_le textChunks batchSize (outcomes i) i st
          (fun rs hrs => hout i (by omega) rs hrs)
        have hslice := batchSlice_length textChunks batchSize i
        have hmul : (i + 1) * batchSize = i * batchSize + batchSize := Nat.succ_mul i batchSize
        omega
      · rw [(processBatchStep_monotone textChunks batchSize (outcomes i) i st).2.2]
        exact htot

/-- C6: the `BatchProgress` counters `completedChunks` and `failedChunks` are
non-decreasing under every batch-settlement update (success path and
batch-error path alike) and `totalChunks` is never changed by an update; and
— given that each successful batch response carries at most one result per
chunk of its batch, which the batch route guarantees — at the end of any run
(any outcomes, any pause schedule) their sum never exceeds `totalChunks`,
fixed at run start. -/
theorem batchProgress_monotone_and_bounded (textChunks : List TextChunk)
    (outcomes : Nat → Except (List Char) (List ChunkResult)) (pauseAt : Nat → Bool)
    (hout : ∀ j, j < (textChunks.length + 10 - 1) / 10 → ∀ rs,
      outcomes j = Except.ok rs → rs.length ≤ (batchSlice textChunks 10 j).length) :
    (∀ (bs : Nat) (outcome : Except (List Char) (List ChunkResult)) (i : Nat) (st : RunState),
      st.progress.completedChunks ≤
        (processBatchStep textChunks bs outcome i st).progress.completedChunks ∧
      st.progress.failedChunks ≤
        (processBatchStep textChunks bs outcome i st).progress.failedChunks ∧
      (processBatchStep textChunks bs outcome i st).progress.totalChunks =
        st.progress.totalChunks) ∧
    (handleGenerateAudio textChunks outcomes pauseAt).progress.completedChunks +
      (handleGenerateAudio textChunks outcomes pauseAt).progress.failedChunks ≤
      (handleGenerateAudio textChunks outcomes pauseAt).progress.totalChunks := by
  constructor
  · intro bs outcome i st
    exact processBatchStep_monotone textChunks bs outcome i st
  · unfold handleGenerateAudio
    apply runLoop_sum_le textChunks 10 outcomes pauseAt ((textChunks.length + 10 - 1) / 10) 0
    · simpa using hout
    · simp [initProgress]
    · rfl

/-- Concrete run for the C6 witness: one chunk, every batch succeeding. -/
def tcOne : List TextChunk := [⟨0, ['h', 'i'], 0, 2⟩]

/-- Outcomes for the C6 witness: batch 0 answers with one successful result. -/
def outOne : Nat → Except (List Char) (List ChunkResult) :=
  fun _ => Except.ok [⟨0, true, some ['u'], some 1, some ['f'], none⟩]

theorem batchProgress_monotone_and_bounded_witness :
    (handleGenerateAudio tcOne outOne (fun _ => false)).progress.completedChunks +
      (handleGenerateAudio tcOne outOne (fun _ => false)).progress.failedChunks ≤
      (handleGenerateAudio tcOne outOne (fun _ => false)).progress.totalChunks :=
  (batchProgress_monotone_and_bounded tcOne outOne (fun _ => false)
    (by
      intro j hj rs hrs
      injection hrs with h
      subst h
      have hj0 : j = 0 := by
        simp [tcOne] at hj
        omega
      subst hj0
      decide)).2

/-- C7: when the batch submission for batch `i` throws (`outcomes i` is the
error case), every `AudioChunk` of that batch transitions to `failed`
carrying the thrown error's message, `failedChunks` grows by the size of
batch `i`, and the loop continues with batch `i + 1` instead of aborting —
so every chunk of the attempted batch reaches a terminal state. -/
theorem batch_error_fails_all (textChunks : List TextChunk) (batchSize : Nat)
    (outcomes : Nat → Except (List Char) (List ChunkResult)) (pauseAt : Nat → Bool)
    (msg : List Char) (i rem : Nat) (st : RunState)
    (hout : outcomes i = Except.error msg) (hp : pauseAt i = false) :
    (∀ c ∈ (processBatchStep textChunks batchSize (outcomes i) i st).audioChunks,
      (batchSlice textChunks batchSize i).any (fun bc => bc.index == c.chunkIndex) = true →
      c.status = ChunkStatus.failed ∧ c.error = some msg) ∧
    (processBatchStep textChunks batchSize (outcomes i) i st).progress.failedChunks =
      st.progress.failedChunks + (batchSlice textChunks batchSize i).length ∧
    runLoop textChunks batchSize outcomes pauseAt i (rem + 1) st =
      runLoop textChunks batchSize outcomes pauseAt (i + 1) rem
        (processBatchStep textChunks batchSize (outcomes i) i st) := by
  refine ⟨?_, ?_, ?_⟩
  · rw [hout]
    intro c hc hmem
    simp only [processBatchStep, List.map_map, List.mem_map] at hc
    obtain ⟨a, _, rfl⟩ := hc
    simp only [Function.comp] at hmem ⊢
    by_cases hb : (batchSlice textChunks batchSize i).any
        (fun bc => bc.index == (markGenerating (batchSlice textChunks batchSize i) a).chunkIndex) = true
    · unfold failBatch
      rw [if_pos hb]
      exact ⟨rfl, rfl⟩
    · exfalso
      apply hb
      have hfix : (failBatch (batchSlice textChunks batchSize i) msg
          (markGenerating (batchSlice textChunks batchSize i) a)).chunkIndex =
          (markGenerating (batchSlice textChunks batchSize i) a).chunkIndex :=
        failBatch_chunkIndex _ _ _
      rw [← hfix]
      exact hmem
  · rw [hout]
    rfl
  · simp only [runLoop, hp]
    rfl

/-- Concrete state for the C7 witness: two pending chunks, batch 0 throwing. -/
def stTwo : RunState :=
  ⟨initAudioChunks [⟨0, ['a'], 0, 1⟩, ⟨1, ['b'], 1, 2⟩],
    initProgress [⟨0, ['a'], 0, 1⟩, ⟨1, ['b'], 1, 2⟩] 10⟩

/-- Outcomes for the C7 witness: every batch submission throws "boom". -/
def outErr : Nat → Except (List Char) (List ChunkResult) :=
  fun _ => Except.error ['b', 'o', 'o', 'm']

theorem batch_error_fails_all_witness :
    (processBatchStep [⟨0, ['a'], 0, 1⟩, ⟨1, ['b'], 1, 2⟩] 10 (outErr 0) 0 stTwo).progress.failedChunks =
      stTwo.progress.failedChunks +
        (batchSlice [⟨0, ['a'], 0, 1⟩, ⟨1, ['b'], 1, 2⟩] 10 0).length ∧
    runLoop [⟨0, ['a'], 0, 1⟩, ⟨1, ['b'], 1, 2⟩] 10 outErr (fun _ => false) 0 1 stTwo =
      runLoop [⟨0, ['a'], 0, 1⟩, ⟨1, ['b'], 1, 2⟩] 10 outErr (fun _ => false) 1 0
        (processBatchStep [⟨0, ['a'], 0, 1⟩, ⟨1, ['b'], 1, 2⟩] 10 (outErr 0) 0 stTwo) :=
  ⟨(batch_error_fails_all [⟨0, ['a'], 0, 1⟩, ⟨1, ['b'], 1, 2⟩] 10 outErr (fun _ => false)
      (['b', 'o', 'o', 'm']) 0 0 stTwo rfl rfl).2.1,
    (batch_error_fails_all [⟨0, ['a'], 0, 1⟩, ⟨1, ['b'], 1, 2⟩] 10 outErr (fun _ => false)
      (['b', 'o', 'o', 'm']) 0 0 stTwo rfl rfl).2.2⟩

/-- Text chunks for the C8 scenario: 21 chunks, hence 3 batches of size 10. -/
def tc21 : List TextChunk := (List.range 21).map (fun i => ⟨i, ['x'], i, i + 1⟩)

/-- Outcomes for the C8 scenario: every batch that is sent succeeds for each
of its chunks. -/
def out21 : Nat → Except (List Char) (List ChunkResult) :=
  fun i => Except.ok ((batchSlice tc21 10 i).map
    (fun c => ⟨c.index, true, some ['u'], some 1, some ['f'], none⟩))

/-- The pause schedule of the C8 scenario: a pause is requested before batch
index 1 (the second batch). -/
def pause21 : Nat → Bool := fun i => decide (1 ≤ i)

/-- C8 on the code (the claim's scenario evaluated): pausing before batch 2
of a 3-batch run stops the loop with every chunk of batches 2 and 3 still
`pending` and `completedBatches = 1` of `totalBatches = 3`; and
`handlePauseResume` — the only resume mechanism the source has — merely
toggles the `isPaused` flag: nothing re-enters the batch loop, so the run
never continues to `completedBatches = totalBatches`. -/
theorem pause_leaves_pending_resume_only_toggles :
    (handleGenerateAudio tc21 out21 pause21).progress.completedBatches = 1 ∧
    (handleGenerateAudio tc21 out21 pause21).progress.totalBatches = 3 ∧
    ((handleGenerateAudio tc21 out21 pause21).audioChunks.filter
      (fun c => decide (10 ≤ c.chunkIndex))).all
        (fun c => decide (c.status = ChunkStatus.pending)) = true ∧
    ((handleGenerateAudio tc21 out21 pause21).audioChunks.filter
      (fun c => decide (c.chunkIndex < 10))).all
        (fun c => decide (c.status = ChunkStatus.completed)) = true ∧
    handlePauseResume true = false := by
  refine ⟨by decide, by decide, by decide, by decide, rfl⟩

/-! ## ZIP export (`handleDownloadAllAsZip` of `page.tsx`)

Fetching each blob and serialising the archive are external collaborators;
the model keeps what the function decides: the error path and which chunks
enter the archive, under which entry names. -/

/-- `String(n).padStart(3, '0')`. -/
def padStart3 (n : Nat) : List Char :=
  if (Nat.toDigits 10 n).length < 3 then
    List.replicate (3 - (Nat.toDigits 10 n).length) '0' ++ Nat.toDigits 10 n
  else Nat.toDigits 10 n

/-- The archive entry name `` `${paddedIndex}_${chunk.filename}` `` with
`paddedIndex = String(chunk.chunkIndex + 1).padStart(3, '0')`. -/
def zipEntryName (c : AudioChunk) : List Char :=
  padStart3 (c.chunkIndex + 1) ++ '_' :: c.filename

/-- `handleDownloadAllAsZip`: it first filters `audioChunks` down to the
`completed` ones; with zero completed chunks it reports the zero-completed
error and returns without building anything; otherwise it builds one archive
entry per completed chunk. -/
def handleDownloadAllAsZip (audioChunks : List AudioChunk) :
    Except (List Char) (List (List Char × AudioChunk)) :=
  if (audioChunks.filter (fun c => decide (c.status = ChunkStatus.completed))).length = 0 then
    Except.error ("No completed audio chunks to download".data)
  else
    Except.ok ((audioChunks.filter (fun c => decide (c.status = ChunkStatus.completed))).map
      (fun c => (zipEntryName c, c)))

/-- C9: requesting the ZIP export with zero completed chunks yields the
zero-completed error and no archive (not an empty one); with at least one
completed chunk the archive's entries are exactly the completed chunks —
chunks with status `pending`, `generating` or `failed` are silently
excluded. -/
theorem zip_export_rejects_zero_completed (audioChunks : List AudioChunk) :
    ((audioChunks.filter (fun c => decide (c.status = ChunkStatus.completed))).length = 0 →
      handleDownloadAllAsZip audioChunks =
        Except.error ("No completed audio chunks to download".data)) ∧
    (0 < (audioChunks.filter (fun c => decide (c.status = ChunkStatus.completed))).length →
      ∀ entries, handleDownloadAllAsZip audioChunks = Except.ok entries →
        entries.map Prod.snd =
          audioChunks.filter (fun c => decide (c.status = ChunkStatus.completed)) ∧
        ∀ e ∈ entries, e.2.status = ChunkStatus.completed) := by
  constructor
  · intro h
    unfold handleDownloadAllAsZip
    rw [if_pos h]
  · intro h entries he
    unfold handleDownloadAllAsZip at he
    rw [if_neg (by omega)] at he
    injection he with he
    subst he
    constructor
    · have hcomp : (Prod.snd ∘ fun c : AudioChunk => (zipEntryName c, c)) = id := rfl
      rw [List.map_map, hcomp, List.map_id]
    · intro e hee
      rw [List.mem_map] at hee
      obtain ⟨c, hc, rfl⟩ := hee
      have := (List.mem_filter.mp hc).2
      simpa using this

/-- A completed chunk for the C9 witness. -/
def cCompleted : AudioChunk := ⟨0, ['u'], 1, ['f'], ChunkStatus.completed, none, ['t']⟩

/-- A failed chunk for the C9 witness. -/
def cFailed : AudioChunk := ⟨1, [], 0, [], ChunkStatus.failed, some ['e'], ['t']⟩

theorem zip_export_rejects_zero_completed_witness :
    handleDownloadAllAsZip [] = Except.error ("No completed audio chunks to download".data) ∧
    [(zipEntryName cCompleted, cCompleted)].map Prod.snd =
      [cCompleted, cFailed].filter (fun c => decide (c.status = ChunkStatus.completed)) :=
  ⟨(zip_export_rejects_zero_completed []).1 (by decide),
    ((zip_export_rejects_zero_completed [cCompleted, cFailed]).2 (by decide)
      [(zipEntryName cCompleted, cCompleted)] (by rfl)).1⟩

/-! ## The batch route (`POST` of `api/generate-audio-batch/route.ts`)

The single-chunk generation endpoint each promise calls is the oracle
`gen`; the route's inner `try` catches everything, so every promise of the
`Promise.allSettled` fan-out fulfills with a `ChunkResult` (the rejected
branch of the source is dead code). -/

/-- One chunk of the batch request body. -/
structure BatchRequestChunk where
  index : Nat
  text : List Char
  deriving DecidableEq

/-- The artifact fields of a successful single-chunk generation response. -/
structure GenData where
  audioUrl : List Char
  duration : Nat
  filename : List Char
  deriving DecidableEq

/-- The fields of the batch request body the route destructures; `none`
stands for an absent (undefined) field. -/
structure BatchRequest where
  chunks : Option (List BatchRequestChunk)
  provider : Option (List Char)
  voice : Option (List Char)
  model : Option (List Char)
  elevenLabsVoiceId : Option (List Char)
  deriving DecidableEq

/-- JavaScript truthiness of an optional string (`undefined` and `""` are
falsy). -/
def strTruthy : Option (List Char) → Bool
  | none => false
  | some l => !l.isEmpty

/-- One chunk's generation promise: success yields the artifact fields,
any failure is caught and yields `success = false` with the message. -/
def chunkResultOf (gen : BatchRequestChunk → Except (List Char) GenData)
    (c : BatchRequestChunk) : ChunkResult :=
  match gen c with
  | Except.ok d => ⟨c.index, true, some d.audioUrl, some d.duration, some d.filename, none⟩
  | Except.error e => ⟨c.index, false, none, none, none, some e⟩

/-- The route's success response body. -/
structure BatchResponse where
  success : Bool
  totalChunks : Nat
  successfulChunks : Nat
  failedChunks : Nat
  results : List ChunkResult
  errors : Option (List (Nat × List Char))
  deriving DecidableEq

/-- Assembly of the success response after the fan-out settles: one result
per input chunk in order, counts by `success`, and the error summary
(`undefined` when empty). -/
def mkBatchResponse (chunks : List BatchRequestChunk)
    (gen : BatchRequestChunk → Except (List Char) GenData) : BatchResponse :=
  { success := true
    totalChunks := chunks.length
    successfulChunks := ((chunks.map (chunkResultOf gen)).filter (fun r => r.success)).length
    failedChunks := ((chunks.map (chunkResultOf gen)).filter (fun r => !r.success)).length
    results := chunks.map (chunkResultOf gen)
    errors :=
      if ((chunks.map (chunkResultOf gen)).filter (fun r => !r.success)).length = 0 then none
      else
        some (((chunks.map (chunkResultOf gen)).filter (fun r => !r.success)).map
          (fun r => (r.chunkIndex, r.error.getD ("Unknown error".data)))) }

/-- `POST` of the batch route: the validation chain (missing or empty chunks
array, missing provider, the per-provider required voice field, unknown
provider — each an HTTP 400, modelled as `Except.error (status, message)`),
then the parallel fan-out and the success response. -/
def batchPOST (req : BatchRequest)
    (gen : BatchRequestChunk → Except (List Char) GenData) :
    Except (Nat × List Char) BatchResponse :=
  match req.chunks with
  | none => Except.error (400, ("Missing required field: chunks array".data))
  | some chunks =>
    if chunks.length = 0 then
      Except.error (400, ("Missing required field: chunks array".data))
    else if !strTruthy req.provider then
      Except.error (400, ("Missing required field: provider".data))
    else if req.provider = some ("minimax".data) then
      if !strTruthy req.voice then
        Except.error (400, ("Missing required field 'voice' for MiniMax".data))
      else Except.ok (mkBatchResponse chunks gen)
    else if req.provider = some ("elevenlabs".data) then
      if !strTruthy req.elevenLabsVoiceId then
        Except.error (400, ("Missing required field 'elevenLabsVoiceId' for ElevenLabs".data))
      else Except.ok (mkBatchResponse chunks gen)
    else
      Except.error (400, ("Unsupported provider: ".data ++ req.provider.getD []))

theorem forall2_map_self {α β : Type} (f : α → β) (R : β → α → Prop) (l : List α)
    (h : ∀ a ∈ l, R (f a) a) : List.Forall₂ R (l.map f) l := by
  induction l with
  | nil => exact List.Forall₂.nil
  | cons a t ih =>
    exact List.Forall₂.cons (h a (by simp)) (ih (fun b hb => h b (by simp [hb])))

/-- C10: every batch request that passes validation (chunks array present and
non-empty, known provider, its required voice field present) gets a success
response carrying exactly one result per input chunk, in order, each with
that chunk's original `index` and either `success = true` with the artifact
fields or `success = false` with an error message; per-chunk failures never
turn the response into an HTTP error — nothing is assumed about `gen`, which
may fail on every chunk. -/
theorem batch_route_one_result_per_chunk (req : BatchRequest)
    (gen : BatchRequestChunk → Except (List Char) GenData)
    (chunks : List BatchRequestChunk)
    (hc : req.chunks = some chunks) (hne : chunks.length ≠ 0)
    (hprov : (req.provider = some ("minimax".data) ∧ strTruthy req.voice = true) ∨
      (req.provider = some ("elevenlabs".data) ∧ strTruthy req.elevenLabsVoiceId = true)) :
    (∀ err, batchPOST req gen ≠ Except.error err) ∧
    (∀ resp, batchPOST req gen = Except.ok resp →
      resp.success = true ∧
      resp.results.length = chunks.length ∧
      List.Forall₂
        (fun r c => r.chunkIndex = c.index ∧
          ((r.success = true ∧ r.error = none ∧ r.audioUrl.isSome = true ∧
            r.duration.isSome = true ∧ r.filename.isSome = true) ∨
           (r.success = false ∧ r.error.isSome = true)))
        resp.results chunks) := by
  have hpost : batchPOST req gen = Except.ok (mkBatchResponse chunks gen) := by
    simp only [batchPOST, hc]
    rcases hprov with ⟨hp, hv⟩ | ⟨hp, hv⟩
    · rw [if_neg hne, if_neg (by rw [hp]; decide), if_pos hp, if_neg (by rw [hv]; decide)]
    · rw [if_neg hne, if_neg (by rw [hp]; decide), if_neg (by rw [hp]; decide),
        if_pos hp, if_neg (by rw [hv]; decide)]
  refine ⟨?_, ?_⟩
  · intro err hcontra
    rw [hpost] at hcontra
    cases hcontra
  · intro resp hresp
    rw [hpost] at hresp
    injection hresp with h
    subst h
    refine ⟨rfl, by simp [mkBatchResponse], ?_⟩
    show List.Forall₂ _ (chunks.map (chunkResultOf gen)) chunks
    apply forall2_map_self
    intro a _
    unfold chunkResultOf
    cases hg : gen a with
    | ok d => exact ⟨rfl, Or.inl ⟨rfl, rfl, rfl, rfl, rfl⟩⟩
    | error e => exact ⟨rfl, Or.inr ⟨rfl, rfl⟩⟩

/-- A valid MiniMax batch request with one chunk, for the C10 witness. -/
def reqW : BatchRequest :=
  ⟨some [⟨0, ['h', 'i']⟩], some ("minimax".data), some ("English_radiant_girl".data),
    some ("speech-02-hd".data), none⟩

/-- A generation oracle failing on every chunk, for the C10 witness. -/
def genFail : BatchRequestChunk → Except (List Char) GenData :=
  fun _ => Except.error ("provider down".data)

theorem batch_route_one_result_per_chunk_witness :
    batchPOST reqW genFail ≠ Except.error (400, ("Missing required field: provider".data)) ∧
    (mkBatchResponse [⟨0, ['h', 'i']⟩] genFail).success = true ∧
    (mkBatchResponse [⟨0, ['h', 'i']⟩] genFail).results.length = 1 :=
  ⟨(batch_route_one_result_per_chunk reqW genFail [⟨0, ['h', 'i']⟩] rfl (by decide)
      (Or.inl ⟨rfl, by decide⟩)).1 _,
    ((batch_route_one_result_per_chunk reqW genFail [⟨0, ['h', 'i']⟩] rfl (by decide)
      (Or.inl ⟨rfl, by decide⟩)).2 (mkBatchResponse [⟨0, ['h', 'i']⟩] genFail) rfl).1,
    ((batch_route_one_result_per_chunk reqW genFail [⟨0, ['h', 'i']⟩] rfl (by decide)
      (Or.inl ⟨rfl, by decide⟩)).2 (mkBatchResponse [⟨0, ['h', 'i']⟩] genFail) rfl).2.1⟩

end AudioApp
